import Mathlib

/-!
Verification of the renaming script `format-it.py`:

```
  for filename in os.listdir(os.path.dirname(os.path.abspath(__file__))):
      if '_' in filename:
          new_filename = filename.replace('_', '-')
          shutil.move(filename, new_filename)
```

The filesystem is modelled after the objects the relevant system calls act
on: a directory is identified by a node (its inode) and maps to the list of
its entries, each entry binding a bare name to the node of the object it
names.  An entry is a subdirectory exactly when its node has a listing of
its own; file nodes have none.  A rename changes an entry's name in the
parent listing and nothing else, so a renamed subdirectory keeps its node
and hence its contents, as the real `os.rename` does.

The script lists the directory containing the script itself, but passes the
bare `filename` and `new_filename` to `shutil.move`, so the moves are
resolved against the process's current working directory; the model
therefore takes both the script's directory and the working directory as
parameters.

`shutil.move(src, dst)` is modelled on the stdlib source: when `dst` is an
existing directory the source is moved inside it under its old name
(`real_dst = os.path.join(dst, basename(src))`), raising `shutil.Error`
when that inner path already exists; otherwise a same-directory
`os.rename(src, dst)` is attempted, which fails when `src` is absent and
silently replaces an existing file destination — directly on POSIX, and on
platforms whose rename refuses, via the `except OSError` fallback
`copy2(src, real_dst); os.unlink(src)`, which overwrites just the same.  So
no destination-exists failure is ever raised for a file destination, on any
platform.
-/

/-- Python `str.replace('_', '-')` with single-character arguments acts
independently on each character: an underscore becomes a hyphen and every
other character is kept. -/
def subChar (c : Char) : Char := if c = '_' then '-' else c

/-- `filename.replace('_', '-')` from line 6 of the script. -/
def pyReplace (s : String) : String := String.mk (s.data.map subChar)

/-- The test `'_' in filename` from line 5 of the script: a one-character
needle is in a string iff that character occurs in it. -/
def hasUnderscore (s : String) : Bool := s.data.contains '_'

/-- A directory entry: a bare name bound to the node (inode) of the object
it names. -/
structure Dirent where
  name : String
  node : Nat
deriving DecidableEq, Repr

/-- A filesystem: each directory node is mapped to the list of entries it
currently contains; file nodes are mapped to nothing. -/
def FS := Nat → Option (List Dirent)

/-- The names of a list of entries, in listing order (what `os.listdir`
returns for a directory holding these entries). -/
def namesOf (es : List Dirent) : List String := es.map Dirent.name

/-- The entries of directory node `n`, empty when `n` is not a directory. -/
def direntsOf (fs : FS) (n : Nat) : List Dirent := (fs n).getD []

/-- The entry names of directory node `n`. -/
def entriesOf (fs : FS) (n : Nat) : List String := namesOf (direntsOf fs n)

/-- Overwrite the listing of directory node `n`. -/
def FS.set (fs : FS) (n : Nat) (es : List Dirent) : FS :=
  fun m => if m = n then some es else fs m

/-- The first entry of the listing bearing a given name, the way the name
lookups behind `os.rename` and `os.path.isdir` resolve a bare name. -/
def findEntry (es : List Dirent) (s : String) : Option Dirent :=
  es.find? (fun ent => ent.name == s)

/-- Errors the script can die with (it installs no handler, so any of these
aborts the process). -/
inductive ToolError where
  /-- `os.listdir` on a missing directory. -/
  | dirMissing (n : Nat)
  /-- `FileNotFoundError`: the name passed to `shutil.move` does not exist in
  the working directory (raised by `os.rename` and again by the copy
  fallback). -/
  | srcMissing (name : String)
  /-- `shutil.Error`: the destination is an existing directory and it
  already contains an entry named like the source, so
  `os.path.exists(real_dst)` holds and `shutil.move` refuses. -/
  | dstOccupied (src dst : String)
  /-- Moving a directory onto an existing non-directory: `os.rename` raises,
  and the `except OSError` fallback's `copytree` then fails on the existing
  destination path. -/
  | dirOntoFile (src dst : String)
deriving DecidableEq, Repr

/-- Outcome of a plain same-directory rename with a fresh destination name:
the source entry now bears the destination name, keeping its node (and
hence, for a directory, its contents). -/
def mvPlain (fs : FS) (cwd : Nat) (es : List Dirent) (ent : Dirent)
    (dst : String) : FS :=
  FS.set fs cwd ((es.erase ent) ++ [⟨dst, ent.node⟩])

/-- Outcome of a same-directory rename onto an existing file destination:
the destination entry is silently replaced by the renamed source (POSIX
`os.rename` replaces atomically; the `except OSError` fallback
`copy2` + `unlink` replaces as well). -/
def mvReplace (fs : FS) (cwd : Nat) (es : List Dirent) (ent dent : Dirent)
    (dst : String) : FS :=
  FS.set fs cwd (((es.erase ent).erase dent) ++ [⟨dst, ent.node⟩])

/-- Outcome of `shutil.move` when the destination is an existing directory:
the source entry is removed from the working directory and appended, under
its old name and with its node, to the destination directory's listing. -/
def mvInto (fs : FS) (cwd : Nat) (es : List Dirent) (ent dent : Dirent)
    (des : List Dirent) : FS :=
  fun m => if m = cwd then some (es.erase ent)
    else if m = dent.node then some (des ++ [ent])
    else fs m

/-- `shutil.move(src, dst)` as called on line 7: `src` and `dst` are bare
names, hence both resolve inside the current working directory `cwd`.
Following the stdlib source: if `dst` names an existing directory, either
`src = dst` (then `_samefile` holds and `os.rename(src, dst)` is a no-op),
or the source is moved inside that directory, refused with `shutil.Error`
when an entry named like the source already exists there; otherwise a
same-directory `os.rename(src, dst)` runs, failing when `src` is absent,
silently replacing an existing file destination (on every platform — POSIX
directly, otherwise via the `except OSError` `copy2` + `unlink` fallback),
except that a directory source cannot land on an existing file (the
fallback's `copytree` fails there).  A single move either fully happens or
fails with no effect. -/
def FS.move (fs : FS) (cwd : Nat) (src dst : String) :
    Except ToolError FS :=
  match fs cwd with
  | none => .error (.srcMissing src)
  | some es =>
    match findEntry es src with
    | none => .error (.srcMissing src)
    | some ent =>
      match findEntry es dst with
      | some dent =>
        match fs dent.node with
        | some des =>
          if src = dst then .ok fs
          else if src ∈ namesOf des then .error (.dstOccupied src dst)
          else .ok (mvInto fs cwd es ent dent des)
        | none =>
          match fs ent.node with
          | some _ => .error (.dirOntoFile src dst)
          | none => .ok (mvReplace fs cwd es ent dent dst)
      | none => .ok (mvPlain fs cwd es ent dst)

/-- The loop body (lines 5-7): skip a name without an underscore, otherwise
move it to the name with underscores replaced by hyphens. -/
def processEntry (cwd : Nat) (fs : FS) (filename : String) :
    Except ToolError FS :=
  if hasUnderscore filename then
    FS.move fs cwd filename (pyReplace filename)
  else .ok fs

/-- The `for` loop over a listing already in hand: entries are processed in
listing order; the first error aborts the process at once, leaving the
filesystem as the earlier iterations left it. -/
def runFrom (cwd : Nat) (fs : FS) : List String → FS × Option ToolError
  | [] => (fs, none)
  | f :: rest =>
    match processEntry cwd fs f with
    | .ok fs' => runFrom cwd fs' rest
    | .error e => (fs, some e)

/-- The whole script: list the directory containing the script (`scriptDir`,
from `os.path.dirname(os.path.abspath(__file__))`) once, then run the loop;
the moves themselves happen in the working directory `cwd`.  The result is
the final filesystem together with the uncaught exception, if any (the
process exits with status 0 exactly when that component is `none`). -/
def runTool (fs : FS) (scriptDir cwd : Nat) : FS × Option ToolError :=
  match fs scriptDir with
  | none => (fs, some (.dirMissing scriptDir))
  | some es => runFrom cwd fs (namesOf es)

/-- The old-name/new-name pair an entry contributes (lines 5-6), `none` for
an entry the filter skips. -/
def renamePair (f : String) : Option (String × String) :=
  if hasUnderscore f then some (f, pyReplace f) else none

/-- The rename plan a listing determines: a pure function of the listing. -/
def plan (l : List String) : List (String × String) := l.filterMap renamePair

/-- Apply a list of old-name/new-name moves in order, aborting at the first
error. -/
def applyMoves (cwd : Nat) (fs : FS) :
    List (String × String) → FS × Option ToolError
  | [] => (fs, none)
  | (src, dst) :: rest =>
    match FS.move fs cwd src dst with
    | .ok fs' => applyMoves cwd fs' rest
    | .error e => (fs, some e)

/-- A concrete filesystem whose script directory (node 0) holds one
underscore-named file, with a distinct, empty working directory (node 1). -/
def fsSplit : FS :=
  fun n => if n = 0 then some [⟨"a_b", 10⟩]
    else if n = 1 then some [] else none

/-- A concrete one-directory filesystem holding the files `a_b` and
`a-b`. -/
def fsCollide : FS :=
  fun n => if n = 0 then some [⟨"a_b", 10⟩, ⟨"a-b", 11⟩] else none

/-- A concrete one-directory filesystem with the spec's example listing. -/
def fsScenario : FS :=
  fun n => if n = 0 then
      some [⟨"image_01.raw", 1⟩, ⟨"README", 2⟩, ⟨"data_set_2.bin", 3⟩]
    else none

/-- A concrete filesystem where the second qualifying entry's target is a
subdirectory already containing the source's name, so its move raises
`shutil.Error`. -/
def fsAbort : FS :=
  fun n => if n = 0 then some [⟨"x_y", 1⟩, ⟨"a_b", 2⟩, ⟨"a-b", 3⟩]
    else if n = 3 then some [⟨"a_b", 4⟩] else none

/-- A concrete filesystem with one empty directory. -/
def fsEmpty : FS := fun n => if n = 0 then some [] else none

/-- A concrete filesystem whose operated-on directory (node 0) contains an
underscore-named subdirectory (node 2, with one inner entry) and a plain
file. -/
def fsNested : FS :=
  fun n => if n = 0 then some [⟨"sub_dir", 2⟩, ⟨"plain", 3⟩]
    else if n = 2 then some [⟨"inner_file", 4⟩] else none

/-- A concrete filesystem where the file `a_b`'s computed target `a-b` is an
existing empty subdirectory (node 2), so the move puts `a_b` inside it. -/
def fsInto : FS :=
  fun n => if n = 0 then some [⟨"a_b", 1⟩, ⟨"a-b", 2⟩]
    else if n = 2 then some [] else none

/-! Helper lemmas about the character substitution. -/

theorem hasUnderscore_iff (s : String) :
    hasUnderscore s = true ↔ '_' ∈ s.data := by
  simp [hasUnderscore, List.contains, List.elem_iff]

theorem subChar_ne_underscore (c : Char) : subChar c ≠ '_' := by
  by_cases h : c = '_' <;> simp [subChar, h]

theorem pyReplace_data (s : String) : (pyReplace s).data = s.data.map subChar :=
  rfl

theorem hasUnderscore_pyReplace (s : String) :
    hasUnderscore (pyReplace s) = false := by
  rw [Bool.eq_false_iff]
  intro h
  rcases List.mem_map.mp ((hasUnderscore_iff _).mp h) with ⟨c, _, hc⟩
  exact subChar_ne_underscore c hc

theorem subChar_subChar (c : Char) : subChar (subChar c) = subChar c := by
  by_cases h : c = '_' <;> simp [subChar, h]

theorem pyReplace_idem (s : String) : pyReplace (pyReplace s) = pyReplace s := by
  unfold pyReplace
  rw [List.map_map]
  exact congrArg String.mk (List.map_congr_left fun c _ => subChar_subChar c)

theorem pyReplace_ne_self (s : String) (h : hasUnderscore s = true) :
    pyReplace s ≠ s := by
  intro heq
  have h2 := hasUnderscore_pyReplace s
  rw [heq, h] at h2
  exact Bool.noConfusion h2

/-! Helper lemmas about listings and entry lookup. -/

theorem namesOf_cons (ent : Dirent) (tl : List Dirent) :
    namesOf (ent :: tl) = ent.name :: namesOf tl := rfl

theorem namesOf_append (l1 l2 : List Dirent) :
    namesOf (l1 ++ l2) = namesOf l1 ++ namesOf l2 :=
  List.map_append _ l1 l2

theorem namesOf_mem_of_mem (es : List Dirent) (ent : Dirent)
    (h : ent ∈ es) : ent.name ∈ namesOf es :=
  List.mem_map_of_mem _ h

theorem namesOf_mem_erase (es : List Dirent) (ent : Dirent) (e : String)
    (hne : e ≠ ent.name) (h : e ∈ namesOf es) :
    e ∈ namesOf (es.erase ent) := by
  rcases List.mem_map.mp h with ⟨pr, hpr, hname⟩
  have hprne : pr ≠ ent := fun hh => hne (by rw [← hname, hh])
  exact hname ▸ namesOf_mem_of_mem _ pr ((List.mem_erase_of_ne hprne).mpr hpr)

theorem namesOf_count_erase (es : List Dirent) (ent : Dirent) (e : String)
    (h : ent ∈ es) :
    (namesOf (es.erase ent)).count e + (if ent.name = e then 1 else 0)
      = (namesOf es).count e := by
  induction es with
  | nil => exact absurd h (List.not_mem_nil ent)
  | cons hd tl ih =>
    rw [List.erase_cons]
    by_cases hh : hd = ent
    · rw [if_pos (beq_iff_eq.mpr hh)]
      subst hh
      rw [namesOf_cons, List.count_cons]
      by_cases he : hd.name = e
      · simp [he]
      · have : (e == hd.name) = false :=
          beq_eq_false_iff_ne.mpr fun hh2 => he hh2.symm
        simp [he, this]
    · rw [if_neg fun hb => hh (beq_iff_eq.mp hb)]
      have htl : ent ∈ tl := by
        rcases List.mem_cons.mp h with h1 | h1
        · exact absurd h1.symm hh
        · exact h1
      rw [namesOf_cons, namesOf_cons, List.count_cons, List.count_cons]
      have := ih htl
      omega

theorem findEntry_some (es : List Dirent) (s : String) (ent : Dirent)
    (h : findEntry es s = some ent) : ent ∈ es ∧ ent.name = s := by
  have h2 : es.find? (fun pr => pr.name == s) = some ent := h
  have h3 := List.find?_some h2
  exact ⟨List.mem_of_find?_eq_some h2, beq_iff_eq.mp h3⟩

/-! Helper lemmas about the filesystem model. -/

theorem FS.set_self (fs : FS) (n : Nat) (es : List Dirent) :
    (fs.set n es) n = some es := by
  simp [FS.set]

theorem FS.set_ne (fs : FS) (n : Nat) (es : List Dirent) (m : Nat)
    (h : m ≠ n) : (fs.set n es) m = fs m := by
  simp [FS.set, h]

theorem direntsOf_set_self (fs : FS) (n : Nat) (es : List Dirent) :
    direntsOf (fs.set n es) n = es := by
  simp [direntsOf, FS.set]

theorem entriesOf_set_self (fs : FS) (n : Nat) (es : List Dirent) :
    entriesOf (fs.set n es) n = namesOf es := by
  simp [entriesOf, direntsOf_set_self]

theorem mvInto_cwd (fs : FS) (cwd : Nat) (es : List Dirent)
    (ent dent : Dirent) (des : List Dirent) :
    mvInto fs cwd es ent dent des cwd = some (es.erase ent) := by
  simp [mvInto]

theorem mvInto_other (fs : FS) (cwd : Nat) (es : List Dirent)
    (ent dent : Dirent) (des : List Dirent) (m : Nat)
    (hm : m ≠ cwd) (hm2 : m ≠ dent.node) :
    mvInto fs cwd es ent dent des m = fs m := by
  simp [mvInto, hm, hm2]

theorem mvInto_target (fs : FS) (cwd : Nat) (es : List Dirent)
    (ent dent : Dirent) (des : List Dirent)
    (hm : dent.node ≠ cwd) :
    mvInto fs cwd es ent dent des dent.node = some (des ++ [ent]) := by
  simp [mvInto, hm]

theorem entriesOf_eq (fs : FS) (n : Nat) :
    entriesOf fs n = namesOf (direntsOf fs n) := rfl

theorem FS.move_ok (fs : FS) (cwd : Nat) (src dst : String) (fs' : FS)
    (h : FS.move fs cwd src dst = .ok fs') :
    ∃ es ent, fs cwd = some es ∧ findEntry es src = some ent ∧
      ((src = dst ∧ fs' = fs) ∨
       (∃ dent des, findEntry es dst = some dent ∧ fs dent.node = some des ∧
         src ≠ dst ∧ src ∉ namesOf des ∧
         fs' = mvInto fs cwd es ent dent des) ∨
       (∃ dent, findEntry es dst = some dent ∧ fs dent.node = none ∧
         fs ent.node = none ∧ fs' = mvReplace fs cwd es ent dent dst) ∨
       (findEntry es dst = none ∧ fs' = mvPlain fs cwd es ent dst)) := by
  unfold FS.move at h
  split at h
  · exact absurd h (by simp)
  rename_i es hcwd
  split at h
  · exact absurd h (by simp)
  rename_i ent hsrc
  refine ⟨es, ent, hcwd, hsrc, ?_⟩
  split at h
  case _ dent hdst =>
    split at h
    case _ des hnode =>
      split at h
      case _ h5 => exact Or.inl ⟨h5, (by simpa using h.symm)⟩
      case _ h5 =>
        split at h
        · exact absurd h (by simp)
        rename_i h6
        exact Or.inr (Or.inl ⟨dent, des, hdst, hnode, h5, h6,
          by simpa using h.symm⟩)
    case _ hnode =>
      split at h
      · exact absurd h (by simp)
      rename_i h7
      exact Or.inr (Or.inr (Or.inl ⟨dent, hdst, hnode, h7,
        by simpa using h.symm⟩))
  case _ hdst =>
    exact Or.inr (Or.inr (Or.inr ⟨hdst, by simpa using h.symm⟩))

theorem processEntry_ok_cases (cwd : Nat) (fs : FS) (f : String) (fs' : FS)
    (h : processEntry cwd fs f = .ok fs') :
    (hasUnderscore f = false ∧ fs' = fs) ∨
    (hasUnderscore f = true ∧ FS.move fs cwd f (pyReplace f) = .ok fs') := by
  unfold processEntry at h
  by_cases hu : hasUnderscore f
  · exact Or.inr ⟨hu, by simpa [hu] using h⟩
  · simp only [hu, if_false] at h
    exact Or.inl ⟨by simpa using hu, by simpa using h.symm⟩

theorem processEntry_move_effect (cwd : Nat) (fs : FS) (f : String) (fs' : FS)
    (hu : hasUnderscore f = true)
    (hmove : FS.move fs cwd f (pyReplace f) = .ok fs') :
    ∃ es, fs cwd = some es ∧
      pyReplace f ∈ entriesOf fs' cwd ∧
      (∀ e, hasUnderscore e = false → e ∈ namesOf es → e ∈ entriesOf fs' cwd) ∧
      (∀ e, hasUnderscore e = true →
        (entriesOf fs' cwd).count e + (if f = e then 1 else 0)
          = (namesOf es).count e) ∧
      (∀ i, i ≠ cwd → ∀ pr ∈ direntsOf fs i, pr ∈ direntsOf fs' i) ∧
      (fs' cwd).isSome = true := by
  rcases FS.move_ok fs cwd f (pyReplace f) fs' hmove
    with ⟨es, ent, h1, h2, hbr⟩
  rcases findEntry_some es f ent h2 with ⟨hent, hname⟩
  have hfd : f ≠ pyReplace f := fun hh => pyReplace_ne_self f hu hh.symm
  refine ⟨es, h1, ?_⟩
  rcases hbr with ⟨heq, _⟩ | ⟨dent, des, h3, h4, _, h6, rfl⟩ |
    ⟨dent, h3, h4, h7, rfl⟩ | ⟨h3, rfl⟩
  · exact absurd heq hfd
  · -- destination is an existing directory: the source moved inside it
    rcases findEntry_some es (pyReplace f) dent h3 with ⟨hdent, hdname⟩
    have hde : dent ≠ ent := by
      intro hh
      rw [hh, hname] at hdname
      exact hfd hdname
    have hcwd : direntsOf (mvInto fs cwd es ent dent des) cwd
        = es.erase ent := by
      simp [direntsOf, mvInto_cwd]
    refine ⟨?_, ?_, ?_, ?_, by simp [mvInto_cwd]⟩
    · rw [entriesOf_eq, hcwd, ← hdname]
      exact namesOf_mem_of_mem _ dent ((List.mem_erase_of_ne hde).mpr hdent)
    · intro e he hmem
      rw [entriesOf_eq, hcwd]
      refine namesOf_mem_erase es ent e ?_ hmem
      rw [hname]
      intro hh
      rw [hh, hu] at he
      exact Bool.noConfusion he
    · intro e he
      rw [entriesOf_eq, hcwd, ← hname]
      exact namesOf_count_erase es ent e hent
    · intro i hi pr hpr
      by_cases hidt : i = dent.node
      · subst hidt
        have hfi : direntsOf fs dent.node = des := by simp [direntsOf, h4]
        have hfi2 : direntsOf (mvInto fs cwd es ent dent des) dent.node
            = des ++ [ent] := by
          simp [direntsOf, mvInto, hi]
        rw [hfi2]
        exact List.mem_append_left _ (hfi ▸ hpr)
      · have hsame : mvInto fs cwd es ent dent des i = fs i :=
          mvInto_other fs cwd es ent dent des i hi hidt
        rw [direntsOf, hsame]
        exact hpr
  · -- destination is an existing file: silently replaced
    rcases findEntry_some es (pyReplace f) dent h3 with ⟨hdent, hdname⟩
    have hde : dent ≠ ent := by
      intro hh
      rw [hh, hname] at hdname
      exact hfd hdname
    have hcwd : direntsOf (mvReplace fs cwd es ent dent (pyReplace f)) cwd
        = ((es.erase ent).erase dent) ++ [⟨pyReplace f, ent.node⟩] := by
      simp [mvReplace, direntsOf_set_self]
    refine ⟨?_, ?_, ?_, ?_, by simp [mvReplace, FS.set_self]⟩
    · rw [entriesOf_eq, hcwd, namesOf_append]
      exact List.mem_append_right _ (by simp [namesOf])
    · intro e he hmem
      rw [entriesOf_eq, hcwd, namesOf_append]
      by_cases hedst : e = pyReplace f
      · exact List.mem_append_right _ (by simp [namesOf, hedst])
      · refine List.mem_append_left _ ?_
        refine namesOf_mem_erase _ dent e (by rw [hdname]; exact hedst) ?_
        refine namesOf_mem_erase es ent e ?_ hmem
        rw [hname]
        intro hh
        rw [hh, hu] at he
        exact Bool.noConfusion he
    · intro e he
      have hedst : e ≠ pyReplace f := by
        intro hh
        rw [hh, hasUnderscore_pyReplace] at he
        exact Bool.noConfusion he
      have hdent2 : dent ∈ es.erase ent := (List.mem_erase_of_ne hde).mpr hdent
      have hc1 := namesOf_count_erase es ent e hent
      have hc2 := namesOf_count_erase (es.erase ent) dent e hdent2
      rw [hdname, if_neg (fun hh => hedst hh.symm)] at hc2
      rw [hname] at hc1
      have hsing : (namesOf [⟨pyReplace f, ent.node⟩]).count e = 0 := by
        simp [namesOf, List.count_singleton, hedst]
      rw [entriesOf_eq, hcwd, namesOf_append, List.count_append, hsing]
      omega
    · intro i hi pr hpr
      have hsame : mvReplace fs cwd es ent dent (pyReplace f) i = fs i := by
        simp [mvReplace, FS.set_ne _ _ _ _ hi]
      rw [direntsOf, hsame]
      exact hpr
  · -- fresh destination name: plain rename
    have hcwd : direntsOf (mvPlain fs cwd es ent (pyReplace f)) cwd
        = (es.erase ent) ++ [⟨pyReplace f, ent.node⟩] := by
      simp [mvPlain, direntsOf_set_self]
    refine ⟨?_, ?_, ?_, ?_, by simp [mvPlain, FS.set_self]⟩
    · rw [entriesOf_eq, hcwd, namesOf_append]
      exact List.mem_append_right _ (by simp [namesOf])
    · intro e he hmem
      rw [entriesOf_eq, hcwd, namesOf_append]
      refine List.mem_append_left _ ?_
      refine namesOf_mem_erase es ent e ?_ hmem
      rw [hname]
      intro hh
      rw [hh, hu] at he
      exact Bool.noConfusion he
    · intro e he
      have hedst : e ≠ pyReplace f := by
        intro hh
        rw [hh, hasUnderscore_pyReplace] at he
        exact Bool.noConfusion he
      have hc1 := namesOf_count_erase es ent e hent
      rw [hname] at hc1
      have hsing : (namesOf [⟨pyReplace f, ent.node⟩]).count e = 0 := by
        simp [namesOf, List.count_singleton, hedst]
      rw [entriesOf_eq, hcwd, namesOf_append, List.count_append, hsing]
      omega
    · intro i hi pr hpr
      have hsame : mvPlain fs cwd es ent (pyReplace f) i = fs i := by
        simp [mvPlain, FS.set_ne _ _ _ _ hi]
      rw [direntsOf, hsame]
      exact hpr

theorem processEntry_keep (cwd : Nat) (fs : FS) (f : String) (fs' : FS)
    (e : String) (he : hasUnderscore e = false)
    (h : processEntry cwd fs f = .ok fs')
    (hmem : e ∈ entriesOf fs cwd) : e ∈ entriesOf fs' cwd := by
  rcases processEntry_ok_cases _ _ _ _ h with ⟨_, rfl⟩ | ⟨hu, hmove⟩
  · exact hmem
  · rcases processEntry_move_effect _ _ _ _ hu hmove
      with ⟨es, h1, _, hkeep, _, _, _⟩
    have hes : entriesOf fs cwd = namesOf es := by
      rw [entriesOf_eq]; simp [direntsOf, h1]
    exact hkeep e he (hes ▸ hmem)

theorem processEntry_subdirs (cwd : Nat) (fs : FS) (f : String) (fs' : FS)
    (i : Nat) (hi : i ≠ cwd) (h : processEntry cwd fs f = .ok fs')
    (pr : Dirent) (hpr : pr ∈ direntsOf fs i) : pr ∈ direntsOf fs' i := by
  rcases processEntry_ok_cases _ _ _ _ h with ⟨_, rfl⟩ | ⟨hu, hmove⟩
  · exact hpr
  · rcases processEntry_move_effect _ _ _ _ hu hmove
      with ⟨es, _, _, _, _, hsub, _⟩
    exact hsub i hi pr hpr

theorem processEntry_cwd_some (cwd : Nat) (fs : FS) (f : String) (fs' : FS)
    (hc : (fs cwd).isSome = true) (h : processEntry cwd fs f = .ok fs') :
    (fs' cwd).isSome = true := by
  rcases processEntry_ok_cases _ _ _ _ h with ⟨_, rfl⟩ | ⟨hu, hmove⟩
  · exact hc
  · rcases processEntry_move_effect _ _ _ _ hu hmove
      with ⟨es, _, _, _, _, _, hsome⟩
    exact hsome

theorem processEntry_count (cwd : Nat) (fs : FS) (f : String) (fs' : FS)
    (h : processEntry cwd fs f = .ok fs') (e : String)
    (he : hasUnderscore e = true) (rest : List String)
    (hle : (entriesOf fs cwd).count e ≤ (f :: rest).count e) :
    (entriesOf fs' cwd).count e ≤ rest.count e := by
  rw [List.count_cons] at hle
  rcases processEntry_ok_cases _ _ _ _ h with ⟨hu, rfl⟩ | ⟨hu, hmove⟩
  · have hef : (f == e) = false := beq_eq_false_iff_ne.mpr fun hh => by
      rw [hh, he] at hu; exact Bool.noConfusion hu
    rw [hef] at hle
    simpa using hle
  · rcases processEntry_move_effect _ _ _ _ hu hmove
      with ⟨es, h1, _, _, hcount, _, _⟩
    have hes : entriesOf fs cwd = namesOf es := by
      rw [entriesOf_eq]; simp [direntsOf, h1]
    have hc := hcount e he
    rw [← hes] at hc
    by_cases hef : f = e
    · rw [if_pos hef] at hc
      rw [beq_iff_eq.mpr hef] at hle
      simp only [if_true] at hle
      omega
    · rw [if_neg hef] at hc
      rw [beq_eq_false_iff_ne.mpr hef] at hle
      simp only [Bool.false_eq_true, if_false] at hle
      omega

theorem runFrom_keep (cwd : Nat) (e : String) (he : hasUnderscore e = false) :
    ∀ (l : List String) (fs : FS), e ∈ entriesOf fs cwd →
      e ∈ entriesOf (runFrom cwd fs l).1 cwd := by
  intro l
  induction l with
  | nil => intro fs hmem; exact hmem
  | cons f rest ih =>
    intro fs hmem
    unfold runFrom
    cases hp : processEntry cwd fs f with
    | ok fs' => exact ih fs' (processEntry_keep _ _ _ _ _ he hp hmem)
    | error err => exact hmem

theorem runFrom_subdirs_keep (cwd i : Nat) (hi : i ≠ cwd) :
    ∀ (l : List String) (fs : FS) (pr : Dirent), pr ∈ direntsOf fs i →
      pr ∈ direntsOf (runFrom cwd fs l).1 i := by
  intro l
  induction l with
  | nil => intro fs pr hpr; exact hpr
  | cons f rest ih =>
    intro fs pr hpr
    unfold runFrom
    cases hp : processEntry cwd fs f with
    | ok fs' => exact ih fs' pr (processEntry_subdirs _ _ _ _ _ hi hp pr hpr)
    | error err => exact hpr

theorem runFrom_cwd_some (cwd : Nat) :
    ∀ (l : List String) (fs : FS), (fs cwd).isSome = true →
      ((runFrom cwd fs l).1 cwd).isSome = true := by
  intro l
  induction l with
  | nil => intro fs hc; exact hc
  | cons f rest ih =>
    intro fs hc
    unfold runFrom
    cases hp : processEntry cwd fs f with
    | ok fs' => exact ih fs' (processEntry_cwd_some _ _ _ _ hc hp)
    | error err => exact hc

theorem runFrom_clears (cwd : Nat) :
    ∀ (l : List String) (fs fs' : FS),
      runFrom cwd fs l = (fs', none) →
      (∀ e, hasUnderscore e = true → (entriesOf fs cwd).count e ≤ l.count e) →
      ∀ e ∈ entriesOf fs' cwd, hasUnderscore e = false := by
  intro l
  induction l with
  | nil =>
    intro fs fs' hrun hinv e hmem
    have hfs : fs = fs' := congrArg Prod.fst hrun
    by_contra hne
    have he : hasUnderscore e = true := by
      cases h : hasUnderscore e
      · exact absurd h hne
      · rfl
    have h1 := hinv e he
    rw [hfs] at h1
    have h2 : 0 < (entriesOf fs' cwd).count e := List.count_pos_iff.mpr hmem
    simp at h1
    omega
  | cons f rest ih =>
    intro fs fs' hrun hinv e hmem
    unfold runFrom at hrun
    cases hpe : processEntry cwd fs f with
    | ok fs1 =>
      rw [hpe] at hrun
      refine ih fs1 fs' hrun ?_ e hmem
      intro e1 he1
      exact processEntry_count _ _ _ _ hpe e1 he1 rest (hinv e1 he1)
    | error err =>
      rw [hpe] at hrun
      exact absurd (congrArg Prod.snd hrun) (by simp)

theorem runFrom_noop (cwd : Nat) :
    ∀ (l : List String) (fs : FS), (∀ f ∈ l, hasUnderscore f = false) →
      runFrom cwd fs l = (fs, none) := by
  intro l
  induction l with
  | nil => intro fs _; rfl
  | cons f rest ih =>
    intro fs hall
    have hf : hasUnderscore f = false := hall f (List.mem_cons_self f rest)
    unfold runFrom
    rw [show processEntry cwd fs f = .ok fs by simp [processEntry, hf]]
    exact ih fs fun g hg => hall g (List.mem_cons_of_mem f hg)

theorem runFrom_renames (cwd : Nat) (n : String)
    (hu : hasUnderscore n = true) :
    ∀ (l : List String) (fs fs' : FS), runFrom cwd fs l = (fs', none) →
      n ∈ l → pyReplace n ∈ entriesOf fs' cwd := by
  intro l
  induction l with
  | nil => intro fs fs' _ hmem; exact absurd hmem (List.not_mem_nil n)
  | cons f rest ih =>
    intro fs fs' hrun hmem
    unfold runFrom at hrun
    cases hpe : processEntry cwd fs f with
    | error err =>
      rw [hpe] at hrun
      exact absurd (congrArg Prod.snd hrun) (by simp)
    | ok fs1 =>
      rw [hpe] at hrun
      by_cases hnf : n = f
      · subst hnf
        rcases processEntry_ok_cases _ _ _ _ hpe with ⟨hu2, _⟩ | ⟨_, hmove⟩
        · rw [hu] at hu2; exact Bool.noConfusion hu2
        · rcases processEntry_move_effect _ _ _ _ hu hmove
            with ⟨es, _, himg, _, _, _, _⟩
          have hkeep := runFrom_keep cwd (pyReplace n)
            (hasUnderscore_pyReplace n) rest fs1 himg
          have hrun2 : runFrom cwd fs1 rest = (fs', none) := hrun
          rw [hrun2] at hkeep
          exact hkeep
      · exact ih fs1 fs' hrun ((List.mem_cons.mp hmem).resolve_left hnf)

/-! Claim theorems. -/

/-- Claim C1: the claim says every rename happens inside the directory
containing the script, regardless of the current working directory.  The
code resolves the listing against the script's directory but passes bare
names to `shutil.move`, so the rename is attempted in the working directory
instead: with `a_b` in the script's directory (node 0) and an empty working
directory (node 1), the run aborts with a file-not-found error for `a_b`
and nothing in the script's directory is renamed. -/
theorem c1_moves_resolve_against_cwd :
    runTool fsSplit 0 1 = (fsSplit, some (ToolError.srcMissing "a_b")) := rfl

/-- Claim C2, counterexample: with both the files `a_b` and `a-b` present,
the run raises no failure at all and ends with the single entry `a-b`:
`a_b` was renamed onto `a-b`, silently overwriting it (POSIX `os.rename`
replaces the destination; elsewhere `shutil.move`'s `except OSError`
fallback `copy2` + `unlink` replaces it likewise), contradicting the claim
that a failure is raised. -/
theorem c2_collision_overwrites_silently :
    (runTool fsCollide 0 0).2 = none ∧
    entriesOf (runTool fsCollide 0 0).1 0 = ["a-b"] :=
  ⟨rfl, rfl⟩

/-- Claim C2, amended: with both the files `a_b` and `a-b` present
initially, the tool raises no failure on any platform: `shutil.move`
silently overwrites `a-b` with `a_b` (the rename is not skipped either —
`a_b` is gone afterwards and a single `a-b` remains). -/
theorem c2_amended_silent_overwrite :
    (runTool fsCollide 0 0).2 = none ∧
    "a_b" ∉ entriesOf (runTool fsCollide 0 0).1 0 ∧
    "a-b" ∈ entriesOf (runTool fsCollide 0 0).1 0 :=
  ⟨rfl, by decide, by decide⟩

/-- Claim C3: every old-name/new-name pair of the rename plan changes
exactly the underscores: the new name has the same length as the old one,
and at every position the character is a hyphen where the old one was an
underscore and is the old character itself otherwise (positions beyond the
end yield the default on both sides). -/
theorem c3_rename_is_pointwise_substitution (l : List String)
    (old new : String) (h : (old, new) ∈ plan l) (i : Nat) :
    new.data.length = old.data.length ∧
    new.data.getD i 'x'
      = (if old.data.getD i 'x' = '_' then '-' else old.data.getD i 'x') := by
  have hnew : new = pyReplace old := by
    rcases List.mem_filterMap.mp h with ⟨f, _, hf⟩
    unfold renamePair at hf
    by_cases hu : hasUnderscore f
    · rw [if_pos hu, Option.some.injEq, Prod.mk.injEq] at hf
      rw [← hf.2, ← hf.1]
    · rw [if_neg hu] at hf
      exact Option.noConfusion hf
  subst hnew
  constructor
  · rw [pyReplace_data]
    exact List.length_map _ _
  · rw [pyReplace_data, List.getD_eq_getElem?_getD, List.getD_eq_getElem?_getD,
      List.getElem?_map]
    cases old.data[i]? with
    | none => rfl
    | some c =>
      show subChar c = _
      rfl

/-- Witness for `c3_rename_is_pointwise_substitution` at a concrete listing
and position. -/
theorem c3_rename_is_pointwise_substitution_witness :
    ("a_b", "a-b") ∈ plan ["a_b", "README"] ∧
    (("a-b" : String).data.length = ("a_b" : String).data.length ∧
      ("a-b" : String).data.getD 1 'x'
        = (if ("a_b" : String).data.getD 1 'x' = '_' then '-'
            else ("a_b" : String).data.getD 1 'x')) :=
  ⟨by decide,
    c3_rename_is_pointwise_substitution ["a_b", "README"] "a_b" "a-b"
      (by decide) 1⟩

/-- Claim C4: after a successful run over directory `d` (with the working
directory equal to the script's directory) no remaining entry of `d`
contains an underscore, so a second run performs no renames and returns the
same filesystem with no error; and the underscore-to-hyphen substitution
applied twice equals the substitution applied once. -/
theorem c4_idempotent (fs : FS) (d : Nat) (fs2 : FS) (e s : String)
    (h : runTool fs d d = (fs2, none)) (he : e ∈ entriesOf fs2 d) :
    hasUnderscore e = false ∧ runTool fs2 d d = (fs2, none) ∧
    pyReplace (pyReplace s) = pyReplace s := by
  unfold runTool at h
  cases hc : fs d with
  | none =>
    rw [hc] at h
    have h2 : (some (ToolError.dirMissing d) : Option ToolError) = none :=
      congrArg Prod.snd h
    exact Option.noConfusion h2
  | some listing =>
    rw [hc] at h
    have h3 : runFrom d fs (namesOf listing) = (fs2, none) := h
    have hclear : ∀ e1 ∈ entriesOf fs2 d, hasUnderscore e1 = false := by
      refine runFrom_clears d (namesOf listing) fs fs2 h3 ?_
      intro e1 _
      have hl : entriesOf fs d = namesOf listing := by
        rw [entriesOf_eq]; simp [direntsOf, hc]
      rw [hl]
    refine ⟨hclear e he, ?_, pyReplace_idem s⟩
    have hsome := runFrom_cwd_some d (namesOf listing) fs (by simp [hc])
    rw [h3] at hsome
    have hsome2 : (fs2 d).isSome = true := hsome
    rcases Option.isSome_iff_exists.mp hsome2 with ⟨es2, hc2⟩
    unfold runTool
    rw [hc2]
    have hes : entriesOf fs2 d = namesOf es2 := by
      rw [entriesOf_eq]; simp [direntsOf, hc2]
    exact runFrom_noop d (namesOf es2) fs2 fun g hg => hclear g (hes ▸ hg)

/-- Witness for `c4_idempotent` on the spec's example directory. -/
theorem c4_idempotent_witness :
    runTool fsScenario 0 0 = ((runTool fsScenario 0 0).1, none) ∧
    "README" ∈ entriesOf (runTool fsScenario 0 0).1 0 ∧
    (hasUnderscore "README" = false ∧
      runTool (runTool fsScenario 0 0).1 0 0
        = ((runTool fsScenario 0 0).1, none) ∧
      pyReplace (pyReplace "x_y") = pyReplace "x_y") :=
  ⟨rfl, by decide,
    c4_idempotent fsScenario 0 (runTool fsScenario 0 0).1
      "README" "x_y" rfl (by decide)⟩

/-- Claim C5: an entry of the operated-on directory whose name contains no
underscore is skipped by the filter and survives every move step, so it is
still present under its original name when the run ends (also when the run
ends in an abort). -/
theorem c5_no_underscore_untouched (fs : FS) (d : Nat) (e : String)
    (he : hasUnderscore e = false) (hmem : e ∈ entriesOf fs d) :
    e ∈ entriesOf (runTool fs d d).1 d := by
  unfold runTool
  cases hc : fs d with
  | none => exact hmem
  | some listing => exact runFrom_keep d e he (namesOf listing) fs hmem

/-- Witness for `c5_no_underscore_untouched` at a concrete directory. -/
theorem c5_no_underscore_untouched_witness :
    hasUnderscore "README" = false ∧
    "README" ∈ entriesOf fsScenario 0 ∧
    "README" ∈ entriesOf (runTool fsScenario 0 0).1 0 :=
  ⟨by decide, by decide,
    c5_no_underscore_untouched fsScenario 0 "README" (by decide) (by decide)⟩

/-- Claim C6: the loop has no handler and no retry: if the entries of `l1`
are processed without error and the next entry `f` fails, the whole run over
`l1 ++ f :: l2` stops right there with `f`'s error; the filesystem keeps
exactly the moves of `l1` (the prefix keeps its new names), and `f` and the
never-reached entries of `l2` keep their old names. -/
theorem c6_error_aborts_immediately (cwd : Nat) (fs fs1 : FS)
    (l1 l2 : List String) (f : String) (err : ToolError)
    (h1 : runFrom cwd fs l1 = (fs1, none))
    (h2 : processEntry cwd fs1 f = .error err) :
    runFrom cwd fs (l1 ++ f :: l2) = (fs1, some err) := by
  have H : ∀ (l : List String) (fs0 : FS),
      runFrom cwd fs0 l = (fs1, none) →
      runFrom cwd fs0 (l ++ f :: l2) = (fs1, some err) := by
    intro l
    induction l with
    | nil =>
      intro fs0 h0
      have hfs : fs0 = fs1 := congrArg Prod.fst h0
      subst hfs
      rw [List.nil_append]
      unfold runFrom
      rw [h2]
    | cons g rest ih =>
      intro fs0 h0
      have h0g : (match processEntry cwd fs0 g with
        | .ok fs' => runFrom cwd fs' rest
        | .error e => (fs0, some e)) = (fs1, none) := h0
      rw [List.cons_append]
      unfold runFrom
      cases hg : processEntry cwd fs0 g with
      | ok fsg =>
        rw [hg] at h0g
        exact ih fsg h0g
      | error e2 =>
        rw [hg] at h0g
        have h4 : (some e2 : Option ToolError) = none := congrArg Prod.snd h0g
        exact Option.noConfusion h4
  exact H l1 fs h1

/-- Witness for `c6_error_aborts_immediately`: `x_y` is renamed, then the
move of `a_b` fails (its target `a-b` is a subdirectory that already holds
an entry named `a_b`, so `shutil.move` raises `shutil.Error`), and the
trailing entry `tail_z` is never reached. -/
theorem c6_error_aborts_immediately_witness :
    runFrom 0 fsAbort ["x_y"] = ((runFrom 0 fsAbort ["x_y"]).1, none) ∧
    processEntry 0 (runFrom 0 fsAbort ["x_y"]).1 "a_b"
      = .error (ToolError.dstOccupied "a_b" "a-b") ∧
    runFrom 0 fsAbort (["x_y"] ++ "a_b" :: ["tail_z"])
      = ((runFrom 0 fsAbort ["x_y"]).1,
          some (ToolError.dstOccupied "a_b" "a-b")) :=
  ⟨rfl, rfl,
    c6_error_aborts_immediately 0 fsAbort (runFrom 0 fsAbort ["x_y"]).1
      ["x_y"] ["tail_z"] "a_b" (ToolError.dstOccupied "a_b" "a-b") rfl rfl⟩

/-- Claim C7, counterexample: entries inside subdirectories are not always
untouched.  With the file `a_b` and the empty subdirectory `a-b` (node 2)
both in the operated-on directory, the run succeeds and `shutil.move`'s
`isdir(dst)` branch moves `a_b` inside `a-b` under its old, un-renamed
name: the subdirectory's listing goes from empty to `["a_b"]`, and the base
directory keeps only `a-b`. -/
theorem c7_subdir_gains_entry :
    (runTool fsInto 0 0).2 = none ∧
    entriesOf fsInto 2 = [] ∧
    entriesOf (runTool fsInto 0 0).1 2 = ["a_b"] ∧
    entriesOf (runTool fsInto 0 0).1 0 = ["a-b"] :=
  ⟨rfl, rfl, rfl, rfl⟩

/-- Claim C7, amended: only the immediate entries of the operated-on
directory are examined and used as move sources; an entry inside another
directory is never renamed or removed — every other directory keeps all of
its entries, and a renamed subdirectory keeps its node and hence its whole
listing — though a subdirectory can gain an entry when a computed target
name collides with it; and on a successful run every underscore-named entry
of the listing, file or subdirectory alike (the filter looks only at the
name), leaves behind an entry bearing its substituted name in the
operated-on directory. -/
theorem c7_nonrecursive_amended (fs : FS) (d i : Nat) (pr : Dirent)
    (n : String) (hi : i ≠ d) (hpr : pr ∈ direntsOf fs i)
    (hn : n ∈ entriesOf fs d) (hu : hasUnderscore n = true) :
    pr ∈ direntsOf (runTool fs d d).1 i ∧
    ((runTool fs d d).2 = none →
      pyReplace n ∈ entriesOf (runTool fs d d).1 d) := by
  unfold runTool
  cases hc : fs d with
  | none =>
    refine ⟨hpr, fun h => ?_⟩
    have h2 : (some (ToolError.dirMissing d) : Option ToolError) = none := h
    exact Option.noConfusion h2
  | some listing =>
    refine ⟨runFrom_subdirs_keep d i hi (namesOf listing) fs pr hpr,
      fun hok => ?_⟩
    have hok2 : (runFrom d fs (namesOf listing)).2 = none := hok
    have hmem : n ∈ namesOf listing := by
      have hl : entriesOf fs d = namesOf listing := by
        rw [entriesOf_eq]; simp [direntsOf, hc]
      rw [hl] at hn
      exact hn
    have heq : runFrom d fs (namesOf listing)
        = ((runFrom d fs (namesOf listing)).1, none) := by
      rw [← hok2]
    show pyReplace n ∈ entriesOf (runFrom d fs (namesOf listing)).1 d
    exact runFrom_renames d n hu (namesOf listing) fs _ heq hmem

/-- Witness for `c7_nonrecursive_amended`: the inner entry of the
subdirectory `sub_dir` survives unchanged while `sub_dir` itself is renamed
to `sub-dir` in the operated-on directory. -/
theorem c7_nonrecursive_amended_witness :
    (2 : Nat) ≠ 0 ∧
    (⟨"inner_file", 4⟩ : Dirent) ∈ direntsOf fsNested 2 ∧
    "sub_dir" ∈ entriesOf fsNested 0 ∧
    hasUnderscore "sub_dir" = true ∧
    ((⟨"inner_file", 4⟩ : Dirent) ∈ direntsOf (runTool fsNested 0 0).1 2 ∧
      ((runTool fsNested 0 0).2 = none →
        pyReplace "sub_dir" ∈ entriesOf (runTool fsNested 0 0).1 0)) :=
  ⟨by decide, by decide, by decide, by decide,
    c7_nonrecursive_amended fsNested 0 2 ⟨"inner_file", 4⟩ "sub_dir"
      (by decide) (by decide) (by decide) (by decide)⟩

/-- Claim C8: when the listed directory is empty the loop body never runs,
no move is attempted, the filesystem is unchanged, and the script finishes
without an exception (exit status 0). -/
theorem c8_empty_dir_noop (fs : FS) (d cwd : Nat) (h : fs d = some []) :
    runTool fs d cwd = (fs, none) := by
  unfold runTool
  rw [h]
  rfl

/-- Witness for `c8_empty_dir_noop` at a concrete empty directory. -/
theorem c8_empty_dir_noop_witness :
    fsEmpty 0 = some [] ∧ runTool fsEmpty 0 0 = (fsEmpty, none) :=
  ⟨rfl, c8_empty_dir_noop fsEmpty 0 0 rfl⟩

/-- Claim C9: a filename selected for renaming (it contains an underscore)
always differs from its computed new name, since the new name contains no
underscore; the tool never issues a move of an entry onto itself. -/
theorem c9_no_self_rename (s : String) (h : hasUnderscore s = true) :
    pyReplace s ≠ s :=
  pyReplace_ne_self s h

/-- Witness for `c9_no_self_rename` at a concrete filename. -/
theorem c9_no_self_rename_witness :
    hasUnderscore "a_b" = true ∧ pyReplace "a_b" ≠ "a_b" :=
  ⟨by decide, c9_no_self_rename "a_b" (by decide)⟩

/-- Claim C10: the run is a deterministic function of the listing: it
coincides with first computing the rename plan, a pure function pairing each
underscore-containing old name with its substituted new name, and then
applying exactly those old-name/new-name moves in order; two runs over the
same listing therefore compute the identical pairs. -/
theorem c10_run_follows_pure_plan (cwd : Nat) :
    ∀ (l : List String) (fs : FS),
      runFrom cwd fs l = applyMoves cwd fs (plan l) := by
  intro l
  induction l with
  | nil => intro fs; rfl
  | cons f rest ih =>
    intro fs
    by_cases hu : hasUnderscore f
    · have hplan : plan (f :: rest) = (f, pyReplace f) :: plan rest := by
        simp [plan, List.filterMap_cons, renamePair, hu]
      rw [hplan]
      show (match processEntry cwd fs f with
        | .ok fs' => runFrom cwd fs' rest
        | .error e => (fs, some e)) = _
      rw [show processEntry cwd fs f
          = FS.move fs cwd f (pyReplace f) by simp [processEntry, hu]]
      show _ = (match FS.move fs cwd f (pyReplace f) with
        | .ok fs' => applyMoves cwd fs' (plan rest)
        | .error e => (fs, some e))
      cases FS.move fs cwd f (pyReplace f) with
      | ok fs1 => exact ih fs1
      | error err => rfl
    · have hplan : plan (f :: rest) = plan rest := by
        simp [plan, List.filterMap_cons, renamePair, hu]
      rw [hplan]
      show (match processEntry cwd fs f with
        | .ok fs' => runFrom cwd fs' rest
        | .error e => (fs, some e)) = _
      rw [show processEntry cwd fs f = .ok fs by simp [processEntry, hu]]
      exact ih fs
